import Mathlib

/-!
# Verification of the Apriori frequent-itemset miner

A shallow embedding of the Apriori association-rule miner (files
`Apriori.py`, `A4.py`, `AssociationRule.py`).  Transactions are finite sets
of items over an arbitrary type `α` with decidable equality; the Python
floats are modelled by exact rationals `ℚ`.  The unbounded `while True`
loop of `generateFrequentSets` is modelled with explicit fuel returning
`Option`; termination is proved by showing the canonical fuel
`|items| + 1` always suffices.
-/

namespace AprioriSpec

variable {α : Type} [DecidableEq α]

/-- `Apriori.count` (Apriori.py lines 232-244, identically A4.py 174-186):
the number of transactions of which `s` is a subset, accumulated by a scan
over the transaction list. -/
def count : List (List α) → Finset α → ℕ
  | [], _ => 0
  | t :: rest, s => (if s ⊆ t.toFinset then 1 else 0) + count rest s

/-- `Apriori.calculateSupport` (Apriori.py 198-209): occurrence count
divided by the total number of transactions. -/
def calculateSupport (db : List (List α)) (s : Finset α) : ℚ :=
  (count db s : ℚ) / (db.length : ℚ)

/-- `Apriori.calculateConfidence` (Apriori.py 211-222). -/
def calculateConfidence (db : List (List α)) (itemset body : Finset α) : ℚ :=
  calculateSupport db itemset / calculateSupport db body

/-- `Apriori.calculateLift` (Apriori.py 224-230), with the source's exact
expression `confidence / ((bodySupport * headSupport) / bodySupport)`. -/
def calculateLift (db : List (List α)) (body head : Finset α)
    (confidence : ℚ) : ℚ :=
  confidence / ((calculateSupport db body * calculateSupport db head) /
    calculateSupport db body)

/-- The universe of distinct items appearing across all transactions, as
collected by `Apriori.generateUniqueItemSet` (Apriori.py 172-184). -/
def dbItems : List (List α) → Finset α
  | [] => ∅
  | t :: rest => t.toFinset ∪ dbItems rest

/-- The distinct items in first-appearance order (Python accumulates them
into a hash set whose iteration order is arbitrary; no claim depends on
the order chosen here). -/
def itemList (db : List (List α)) : List α := db.flatten.dedup

/-- The level-1 candidate list built by `generateUniqueItemSet`: one
singleton set per distinct item (Python iterates a hash set in an
arbitrary order; we fix the sorted order, which no claim depends on). -/
def aprioriItems (db : List (List α)) : List (Finset α) :=
  (itemList db).map (fun a => {a})

/-- `Apriori.eliminateCandidates` (Apriori.py 131-148, identically
A4.py 75-92): partition the candidate list into
(frequent, infrequent) by the test `not support < minsup`. -/
def eliminateCandidates (db : List (List α)) (m : ℚ) :
    List (Finset α) → List (Finset α) × List (Finset α)
  | [] => ([], [])
  | s :: rest =>
    let p := eliminateCandidates db m rest
    if ¬ calculateSupport db s < m then (s :: p.1, p.2) else (p.1, s :: p.2)

/-- The inner `for j in range(len(infrequentSets))` loop of
`Apriori.prune` (Apriori.py 260-267): a cell holding `none` models a slot
already overwritten with Python's `None` (the `break` leaves it `none`). -/
def pruneMark : List (Finset α) → Option (Finset α) → Option (Finset α)
  | [], c => c
  | _ :: _, none => none
  | j :: js, some s => if j ⊆ s then pruneMark js none else pruneMark js (some s)

/-- `Apriori.prune` (Apriori.py 246-269): with no known-infrequent sets the
candidates are returned unchanged; otherwise each candidate with an
infrequent subset is overwritten by `None` and the final comprehension
keeps the remaining ones. -/
def prune (itemsets infrequentSets : List (Finset α)) : List (Finset α) :=
  if infrequentSets.length = 0 then itemsets
  else (itemsets.map (fun s => pruneMark infrequentSets (some s))).filterMap id

/-- `itertools.combinations(items, 2)` over a list: all pairs of elements
at strictly increasing positions, in iteration order. -/
def pairsOf : List β → List (β × β)
  | [] => []
  | x :: xs => (xs.map fun y => (x, y)) ++ pairsOf xs

/-- The accumulation loop of `Apriori.generateItemSets`
(Apriori.py 163-169): union each pair, keeping a union not already present
whose size is exactly `k`. -/
def gisAux (k : ℕ) : List (Finset α × Finset α) → List (Finset α) → List (Finset α)
  | [], acc => acc
  | p :: ps, acc =>
    let s := p.1 ∪ p.2
    if s ∉ acc ∧ s.card = k then gisAux k ps (acc ++ [s]) else gisAux k ps acc

/-- `Apriori.generateItemSets` (Apriori.py 150-170): pairwise unions of the
frontier, filtered to size `k` and deduplicated. -/
def generateItemSets (items : List (Finset α)) (k : ℕ) : List (Finset α) :=
  gisAux k (pairsOf items) []

/-- The `while True` loop of `Apriori.generateFrequentSets`
(Apriori.py 92-109), with explicit fuel.  State: current frequent frontier
`fs`, current infrequent sets `infs`, current level `k`, accumulated output
`acc`.  On an empty newly-computed frequent set the loop breaks, restoring
the previous frontier (`frequentSets = prevFrequentSets`). -/
def aprioriLoop (db : List (List α)) (m : ℚ) :
    List (Finset α) → List (Finset α) → ℕ → List (Finset α) → ℕ →
    Option (List (Finset α) × List (Finset α))
  | _, _, _, _, 0 => none
  | fs, infs, k, acc, fuel + 1 =>
    let next := eliminateCandidates db m (prune (generateItemSets fs (k + 1)) infs)
    if next.1 = [] then some (acc, fs)
    else aprioriLoop db m next.1 next.2 (k + 1) (acc ++ next.1) fuel

/-- `Apriori.generateFrequentSets` (Apriori.py 76-110): seed with the
singleton candidates, then run the level-wise loop from level 1 with the
level-1 frequent sets already accumulated.  The result pairs the
accumulated output `allFrequentSets` with the final frequent frontier. -/
def generateFrequentSets (db : List (List α)) (m : ℚ) (fuel : ℕ) :
    Option (List (Finset α) × List (Finset α)) :=
  let first := eliminateCandidates db m (aprioriItems db)
  aprioriLoop db m first.1 first.2 1 first.1 fuel

/-- A full run with the canonical sufficient fuel. -/
def generateFrequentSetsRun (db : List (List α)) (m : ℚ) :
    Option (List (Finset α) × List (Finset α)) :=
  generateFrequentSets db m ((dbItems db).card + 1)

/-- Projection: the accumulated frequent-itemset output of a run. -/
def accOf (o : Option (List (Finset α) × List (Finset α))) : List (Finset α) :=
  (o.map Prod.fst).getD []

/-- `AssociationRule` (AssociationRule.py): body, head, their union, and
the three scores that `generateAssociationRules` assigns after
construction. -/
structure AssociationRule (α : Type) where
  body : Finset α
  head : Finset α
  itemset : Finset α
  support : ℚ
  confidence : ℚ
  lift : ℚ
deriving DecidableEq

/-- Constructing and scoring one rule (Apriori.py 67-70 together with the
`AssociationRule.__init__` union). -/
def mkAssociationRule (db : List (List α)) (body head : Finset α) :
    AssociationRule α :=
  let itemset := body ∪ head
  let confidence := calculateConfidence db itemset body
  { body := body, head := head, itemset := itemset,
    support := calculateSupport db itemset,
    confidence := confidence,
    lift := calculateLift db body head confidence }

/-- `Apriori.generateAssociationRules` (Apriori.py 48-74): for each
frequent itemset, enumerate the bodies (combinations of sizes 1..k); the
head is the rest of the itemset; keep a rule iff both parts are non-empty
and all three thresholds pass.  `itertools.combinations` iterates the
Python set in an arbitrary order; we enumerate the itemset's elements in
database order, which no claim depends on. -/
def generateAssociationRules (db : List (List α))
    (minsup minconf minlift : ℚ) (frequentSets : List (Finset α)) :
    List (AssociationRule α) :=
  frequentSets.flatMap (fun itemset =>
    ((List.range itemset.card).flatMap (fun i =>
        List.sublistsLen (i + 1)
          ((itemList db).filter (fun a => a ∈ itemset)))).filterMap
      (fun c =>
        let body := c.toFinset
        let head := itemset.filter (fun x => x ∉ c)
        if 0 < head.card ∧ 0 < body.card then
          let r := mkAssociationRule db body head
          if minconf ≤ r.confidence ∧ minsup ≤ r.support ∧ minlift ≤ r.lift
          then some r else none
        else none))

/-- Sort key of pass 1 (Apriori.py 124): support, `reverse=True`. -/
def supportGE (a b : AssociationRule α) : Prop := b.support ≤ a.support

/-- Sort key of pass 1 as the specification words it: support ascending. -/
def supportLE (a b : AssociationRule α) : Prop := a.support ≤ b.support

/-- Sort key of pass 2 (Apriori.py 125): confidence ascending. -/
def confidenceLE (a b : AssociationRule α) : Prop := a.confidence ≤ b.confidence

/-- Sort key of pass 3 (Apriori.py 126): lift ascending. -/
def liftLE (a b : AssociationRule α) : Prop := a.lift ≤ b.lift

/-- Sort key of pass 4 (Apriori.py 127): itemset size, `reverse=True`. -/
def sizeGE (a b : AssociationRule α) : Prop := b.itemset.card ≤ a.itemset.card

instance : DecidableRel (@supportGE α) :=
  fun a b => inferInstanceAs (Decidable (b.support ≤ a.support))

instance : DecidableRel (@supportLE α) :=
  fun a b => inferInstanceAs (Decidable (a.support ≤ b.support))

instance : DecidableRel (@confidenceLE α) :=
  fun a b => inferInstanceAs (Decidable (a.confidence ≤ b.confidence))

instance : DecidableRel (@liftLE α) :=
  fun a b => inferInstanceAs (Decidable (a.lift ≤ b.lift))

instance : DecidableRel (@sizeGE α) :=
  fun a b => inferInstanceAs (Decidable (b.itemset.card ≤ a.itemset.card))

/-- `Apriori.sortAssociationRules` (Apriori.py 112-129): four successive
stable sorts (Python's `sorted`, modelled by stable insertion sort): by
support descending (`reverse=True`), then confidence ascending, then lift
ascending, then itemset size descending (`reverse=True`). -/
def sortAssociationRules (l : List (AssociationRule α)) :
    List (AssociationRule α) :=
  List.insertionSort sizeGE (List.insertionSort liftLE
    (List.insertionSort confidenceLE (List.insertionSort supportGE l)))

/-- The Rule Ranker as the specification words it: identical to
`sortAssociationRules` except that the first pass sorts by support
ASCENDING.  Kept separate to compare against the source behavior. -/
def sortAssociationRulesSpec (l : List (AssociationRule α)) :
    List (AssociationRule α) :=
  List.insertionSort sizeGE (List.insertionSort liftLE
    (List.insertionSort confidenceLE (List.insertionSort supportLE l)))

/-- The net ordering actually produced by the four passes of
`sortAssociationRules`: itemset size descending, then (within equal size)
lift ascending, then confidence ascending, then support descending. -/
def ruleRankLE (a b : AssociationRule α) : Prop :=
  sizeGE a b ∧ (sizeGE b a →
    liftLE a b ∧ (liftLE b a →
      confidenceLE a b ∧ (confidenceLE b a → supportGE a b)))

/-! ### Checked variants: Python's runtime failure modes made explicit -/

/-- `calculateSupport` with Python's runtime behavior explicit: dividing
by a zero transaction count is a `ZeroDivisionError`, modelled as `none`. -/
def calculateSupportE (db : List (List α)) (s : Finset α) : Option ℚ :=
  if db.length = 0 then none else some (calculateSupport db s)

/-- `eliminateCandidates` over the checked Support Oracle: `none`
propagates a `ZeroDivisionError` raised while scoring any candidate. -/
def eliminateCandidatesE (db : List (List α)) (m : ℚ) :
    List (Finset α) → Option (List (Finset α) × List (Finset α))
  | [] => some ([], [])
  | s :: rest => do
    let p ← eliminateCandidatesE db m rest
    let sup ← calculateSupportE db s
    if ¬ sup < m then pure (s :: p.1, p.2) else pure (p.1, s :: p.2)

/-- The `generateFrequentSets` loop over the checked Support Oracle.
Outer `none`: fuel exhausted; inner `none`: a `ZeroDivisionError`
surfaced from support evaluation. -/
def aprioriLoopE (db : List (List α)) (m : ℚ) :
    List (Finset α) → List (Finset α) → ℕ → List (Finset α) → ℕ →
    Option (Option (List (Finset α) × List (Finset α)))
  | _, _, _, _, 0 => none
  | fs, infs, k, acc, fuel + 1 =>
    match eliminateCandidatesE db m (prune (generateItemSets fs (k + 1)) infs) with
    | none => some none
    | some next =>
      if next.1 = [] then some (some (acc, fs))
      else aprioriLoopE db m next.1 next.2 (k + 1) (acc ++ next.1) fuel

/-- `Apriori.generateFrequentSets` over the checked Support Oracle. -/
def generateFrequentSetsE (db : List (List α)) (m : ℚ) (fuel : ℕ) :
    Option (Option (List (Finset α) × List (Finset α))) :=
  match eliminateCandidatesE db m (aprioriItems db) with
  | none => some none
  | some first => aprioriLoopE db m first.1 first.2 1 first.1 fuel

/-- `Apriori.__init__` (Apriori.py 11-32): stores the parsed transactions
and the derived unique-item singletons.  The source performs no
validation whatsoever — in particular there is no emptiness check and no
`EmptyDatabaseError` anywhere in the code — so construction is total. -/
def aprioriInit (db : List (List α)) : List (List α) × List (Finset α) :=
  (db, aprioriItems db)

/-! ### The `A4.py` variant -/

/-- `Apriori.generateItemSets` of A4.py (lines 94-108):
`itertools.combinations(items, k)`, each tuple converted to a set. -/
def a4GenerateItemSets (items : List α) (k : ℕ) : List (Finset α) :=
  (List.sublistsLen k items).map List.toFinset

/-- The inner loop of A4.py's `prune` (lines 203-206): a candidate is
appended as soon as SOME infrequent set fails the subset test (and the
candidate is not yet present). -/
def a4PruneInner (itemset : Finset α) :
    List (Finset α) → List (Finset α) → List (Finset α)
  | [], pruned => pruned
  | j :: js, pruned =>
    a4PruneInner itemset js
      (if ¬ j ⊆ itemset ∧ itemset ∉ pruned then pruned ++ [itemset] else pruned)

/-- The outer loop of A4.py's `prune` over the candidate list. -/
def a4PruneAux (infs : List (Finset α)) :
    List (Finset α) → List (Finset α) → List (Finset α)
  | [], pruned => pruned
  | s :: rest, pruned => a4PruneAux infs rest (a4PruneInner s infs pruned)

/-- `Apriori.prune` of A4.py (lines 188-207). -/
def a4Prune (itemsets infrequentSets : List (Finset α)) : List (Finset α) :=
  if infrequentSets.length = 0 then itemsets
  else a4PruneAux infrequentSets itemsets []

/-- The frequent-itemset loop of `Apriori.run` in A4.py (lines 42-60),
with explicit fuel.  The `backup` cell models the local variable of the
same name: it is `none` until the loop body first assigns it.  After the
loop Python executes `frequentSets = backup`; a result of `some none`
therefore models the `UnboundLocalError` raised when the loop body never
ran. -/
def a4Loop (db : List (List α)) (m : ℚ) (items : List α) :
    List (Finset α) → List (Finset α) → Option (List (Finset α)) → ℕ → ℕ →
    Option (Option (List (Finset α)))
  | _, _, _, _, 0 => none
  | fs, infs, backup, k, fuel + 1 =>
    if fs.length ≠ 0 then
      let next := eliminateCandidates db m
        (a4Prune (a4GenerateItemSets items (k + 1)) infs)
      a4Loop db m items next.1 next.2 (some fs) (k + 1) fuel
    else some backup

/-- The frequent-itemset phase of `Apriori.run` in A4.py: seed with the
size-1 candidates, loop while the frontier is non-empty, then restore
`frequentSets = backup`.  `some none` models the `UnboundLocalError` on a
never-entered loop; `some (some fs)` is normal completion. -/
def a4RunFreqPhase (db : List (List α)) (m : ℚ) (fuel : ℕ) :
    Option (Option (List (Finset α))) :=
  let first := eliminateCandidates db m (a4GenerateItemSets (itemList db) 1)
  a4Loop db m (itemList db) first.1 first.2 none 1 fuel

/-! ### Basic facts about the Support Oracle -/

theorem count_le_length (db : List (List α)) (s : Finset α) :
    count db s ≤ db.length := by
  induction db with
  | nil => simp [count]
  | cons t rest ih =>
    simp only [count, List.length_cons]
    split <;> omega

theorem count_le_of_subset (db : List (List α)) {A B : Finset α}
    (h : A ⊆ B) : count db B ≤ count db A := by
  induction db with
  | nil => simp [count]
  | cons t rest ih =>
    simp only [count]
    have : (if B ⊆ t.toFinset then 1 else 0) ≤ (if A ⊆ t.toFinset then 1 else 0) := by
      split
      · simp [Finset.Subset.trans h (by assumption)]
      · omega
    omega

theorem calculateSupport_nonneg (db : List (List α)) (s : Finset α) :
    0 ≤ calculateSupport db s := by
  unfold calculateSupport
  positivity

theorem calculateSupport_le_of_subset (db : List (List α)) {A B : Finset α}
    (h : A ⊆ B) : calculateSupport db B ≤ calculateSupport db A := by
  unfold calculateSupport
  rcases eq_or_ne db.length 0 with h0 | h0
  · simp [h0]
  · have hpos : (0 : ℚ) < (db.length : ℚ) := by positivity
    rw [div_le_div_iff_of_pos_right hpos]
    exact_mod_cast count_le_of_subset db h

/-! ### `eliminateCandidates` -/

theorem mem_eliminateCandidates_fst {db : List (List α)} {m : ℚ}
    {l : List (Finset α)} {S : Finset α} :
    S ∈ (eliminateCandidates db m l).1 ↔ S ∈ l ∧ m ≤ calculateSupport db S := by
  induction l with
  | nil => simp [eliminateCandidates]
  | cons s rest ih =>
    simp only [eliminateCandidates, not_lt]
    split_ifs with h
    · simp only [List.mem_cons, ih]
      constructor
      · rintro (rfl | ⟨hm, hs⟩)
        · exact ⟨Or.inl rfl, h⟩
        · exact ⟨Or.inr hm, hs⟩
      · rintro ⟨rfl | hm, hs⟩
        · exact Or.inl rfl
        · exact Or.inr ⟨hm, hs⟩
    · rw [not_le] at h
      simp only [ih, List.mem_cons]
      constructor
      · rintro ⟨hm, hs⟩
        exact ⟨Or.inr hm, hs⟩
      · rintro ⟨rfl | hm, hs⟩
        · exact absurd hs (not_le.mpr h)
        · exact ⟨hm, hs⟩

theorem mem_eliminateCandidates_snd {db : List (List α)} {m : ℚ}
    {l : List (Finset α)} {S : Finset α} :
    S ∈ (eliminateCandidates db m l).2 ↔ S ∈ l ∧ calculateSupport db S < m := by
  induction l with
  | nil => simp [eliminateCandidates]
  | cons s rest ih =>
    simp only [eliminateCandidates, not_lt]
    split_ifs with h
    · simp only [ih, List.mem_cons]
      constructor
      · rintro ⟨hm, hs⟩
        exact ⟨Or.inr hm, hs⟩
      · rintro ⟨rfl | hm, hs⟩
        · exact absurd hs (not_lt.mpr h)
        · exact ⟨hm, hs⟩
    · rw [not_le] at h
      simp only [List.mem_cons, ih]
      constructor
      · rintro (rfl | ⟨hm, hs⟩)
        · exact ⟨Or.inl rfl, h⟩
        · exact ⟨Or.inr hm, hs⟩
      · rintro ⟨rfl | hm, hs⟩
        · exact Or.inl rfl
        · exact Or.inr ⟨hm, hs⟩

theorem eliminateCandidates_fst_sublist (db : List (List α)) (m : ℚ)
    (l : List (Finset α)) : (eliminateCandidates db m l).1.Sublist l := by
  induction l with
  | nil => simp [eliminateCandidates]
  | cons s rest ih =>
    simp only [eliminateCandidates]
    split
    · exact ih.cons₂ s
    · exact ih.cons s

/-! ### `prune` -/

theorem pruneMark_none (infs : List (Finset α)) : pruneMark infs none = none := by
  cases infs <;> rfl

theorem pruneMark_some (infs : List (Finset α)) (s : Finset α) :
    pruneMark infs (some s) =
      if ∀ j ∈ infs, ¬ j ⊆ s then some s else none := by
  induction infs with
  | nil => simp [pruneMark]
  | cons j js ih =>
    by_cases h1 : j ⊆ s
    · rw [show pruneMark (j :: js) (some s) = pruneMark js none from by
        simp [pruneMark, h1], pruneMark_none, if_neg]
      push_neg
      exact ⟨j, List.mem_cons_self j js, h1⟩
    · rw [show pruneMark (j :: js) (some s) = pruneMark js (some s) from by
        simp [pruneMark, h1], ih]
      by_cases h2 : ∀ j' ∈ js, ¬ j' ⊆ s
      · rw [if_pos h2, if_pos]
        intro j' hj'
        rcases List.mem_cons.mp hj' with rfl | hj'
        · exact h1
        · exact h2 j' hj'
      · rw [if_neg h2, if_neg]
        intro hall
        exact h2 fun j' hj' => hall j' (List.mem_cons_of_mem j hj')

theorem mem_prune {itemsets infs : List (Finset α)} {S : Finset α} :
    S ∈ prune itemsets infs ↔ S ∈ itemsets ∧ ∀ j ∈ infs, ¬ j ⊆ S := by
  rcases eq_or_ne infs [] with rfl | hne
  · simp [prune]
  · unfold prune
    rw [if_neg (by simpa using hne)]
    simp only [List.mem_filterMap, List.mem_map, id]
    constructor
    · rintro ⟨a, ⟨s, hs, rfl⟩, ha⟩
      by_cases h : ∀ j ∈ infs, ¬ j ⊆ s
      · rw [pruneMark_some, if_pos h] at ha
        obtain rfl : s = S := by simpa using ha
        exact ⟨hs, h⟩
      · rw [pruneMark_some, if_neg h] at ha
        simp at ha
    · rintro ⟨hS, h⟩
      exact ⟨some S, ⟨S, hS, by rw [pruneMark_some, if_pos h]⟩, rfl⟩

theorem prune_sublist (itemsets infs : List (Finset α)) :
    (prune itemsets infs).Sublist itemsets := by
  rcases eq_or_ne infs [] with rfl | hne
  · simp [prune]
  · unfold prune
    rw [if_neg (by simpa using hne)]
    induction itemsets with
    | nil => simp
    | cons s rest ih =>
      rw [List.map_cons, pruneMark_some]
      by_cases h : ∀ j ∈ infs, ¬ j ⊆ s
      · rw [if_pos h]
        show (s :: List.filterMap id
          (List.map (fun s => pruneMark infs (some s)) rest)).Sublist (s :: rest)
        exact ih.cons₂ s
      · rw [if_neg h]
        show (List.filterMap id
          (List.map (fun s => pruneMark infs (some s)) rest)).Sublist (s :: rest)
        exact ih.cons s

/-! ### `generateItemSets` -/

theorem mem_pairsOf_of_mem {l : List β} {a b : β} (ha : a ∈ l) (hb : b ∈ l)
    (hab : a ≠ b) : (a, b) ∈ pairsOf l ∨ (b, a) ∈ pairsOf l := by
  induction l with
  | nil => simp at ha
  | cons x xs ih =>
    simp only [pairsOf, List.mem_append, List.mem_map]
    rcases List.mem_cons.mp ha with rfl | ha
    · left
      left
      exact ⟨b, by simpa [hab.symm] using hb, rfl⟩
    · rcases List.mem_cons.mp hb with rfl | hb
      · right
        left
        exact ⟨a, by simpa [hab] using ha, rfl⟩
      · rcases ih ha hb with h | h
        · exact Or.inl (Or.inr h)
        · exact Or.inr (Or.inr h)

theorem fst_mem_of_mem_pairsOf {l : List β} {p : β × β} (h : p ∈ pairsOf l) :
    p.1 ∈ l ∧ p.2 ∈ l := by
  induction l with
  | nil => simp [pairsOf] at h
  | cons x xs ih =>
    simp only [pairsOf, List.mem_append, List.mem_map] at h
    rcases h with ⟨y, hy, rfl⟩ | h
    · exact ⟨List.mem_cons_self x xs, List.mem_cons_of_mem x hy⟩
    · exact ⟨List.mem_cons_of_mem x (ih h).1, List.mem_cons_of_mem x (ih h).2⟩

theorem mem_gisAux {k : ℕ} {ps : List (Finset α × Finset α)}
    {acc : List (Finset α)} {S : Finset α} :
    S ∈ gisAux k ps acc ↔
      S ∈ acc ∨ (S.card = k ∧ ∃ p ∈ ps, p.1 ∪ p.2 = S) := by
  induction ps generalizing acc with
  | nil => simp [gisAux]
  | cons p ps ih =>
    simp only [gisAux]
    split_ifs with h
    · rw [ih]
      simp only [List.mem_append, List.mem_cons, List.not_mem_nil, or_false]
      constructor
      · rintro ((hS | rfl) | ⟨hc, q, hq, rfl⟩)
        · exact Or.inl hS
        · exact Or.inr ⟨h.2, p, Or.inl rfl, rfl⟩
        · exact Or.inr ⟨hc, q, Or.inr hq, rfl⟩
      · rintro (hS | ⟨hc, q, (rfl | hq), rfl⟩)
        · exact Or.inl (Or.inl hS)
        · exact Or.inl (Or.inr rfl)
        · exact Or.inr ⟨hc, q, hq, rfl⟩
    · rw [ih]
      constructor
      · rintro (hS | ⟨hc, q, hq, rfl⟩)
        · exact Or.inl hS
        · exact Or.inr ⟨hc, q, List.mem_cons_of_mem p hq, rfl⟩
      · rintro (hS | ⟨hc, q, hq, rfl⟩)
        · exact Or.inl hS
        · rcases List.mem_cons.mp hq with rfl | hq
          · by_cases hin : q.1 ∪ q.2 ∈ acc
            · exact Or.inl hin
            · exact absurd ⟨hin, hc⟩ h
          · exact Or.inr ⟨hc, q, hq, rfl⟩

theorem mem_generateItemSets {items : List (Finset α)} {k : ℕ} {S : Finset α} :
    S ∈ generateItemSets items k ↔
      S.card = k ∧ ∃ p ∈ pairsOf items, p.1 ∪ p.2 = S := by
  rw [generateItemSets, mem_gisAux]
  simp

theorem gisAux_nodup {k : ℕ} (ps : List (Finset α × Finset α))
    (acc : List (Finset α)) (hacc : acc.Nodup) : (gisAux k ps acc).Nodup := by
  induction ps generalizing acc with
  | nil => simpa [gisAux] using hacc
  | cons p ps ih =>
    simp only [gisAux]
    split_ifs with h
    · exact ih _ (by simp [List.nodup_append, hacc, h.1])
    · exact ih _ hacc

theorem generateItemSets_nodup (items : List (Finset α)) (k : ℕ) :
    (generateItemSets items k).Nodup :=
  gisAux_nodup _ _ List.nodup_nil

/-! ### Candidate generation: soundness and completeness of the join step -/

theorem generateItemSets_sound {fs : List (Finset α)} {U : Finset α} {k : ℕ}
    (hU : ∀ x ∈ fs, x ⊆ U) {S : Finset α}
    (hS : S ∈ generateItemSets fs k) : S.card = k ∧ S ⊆ U := by
  rw [mem_generateItemSets] at hS
  obtain ⟨hc, p, hp, rfl⟩ := hS
  have hm := fst_mem_of_mem_pairsOf hp
  exact ⟨hc, Finset.union_subset (hU _ hm.1) (hU _ hm.2)⟩

theorem generateItemSets_complete {db : List (List α)} {m : ℚ}
    {fs : List (Finset α)} {U : Finset α} {k : ℕ} (hk : 1 ≤ k)
    (hfs : ∀ S, S ∈ fs ↔ S ⊆ U ∧ S.card = k ∧ m ≤ calculateSupport db S)
    {S : Finset α} (hSU : S ⊆ U) (hSc : S.card = k + 1)
    (hSm : m ≤ calculateSupport db S) : S ∈ generateItemSets fs (k + 1) := by
  obtain ⟨a, ha, b, hb, hab⟩ := Finset.one_lt_card.mp (by omega : 1 < S.card)
  have hfreq : ∀ c ∈ S, m ≤ calculateSupport db (S.erase c) := fun c _ =>
    le_trans hSm (calculateSupport_le_of_subset db (Finset.erase_subset c S))
  have hmemA : S.erase a ∈ fs := by
    rw [hfs]
    exact ⟨(Finset.erase_subset a S).trans hSU,
      by rw [Finset.card_erase_of_mem ha, hSc]; omega
        , hfreq a ha⟩
  have hmemB : S.erase b ∈ fs := by
    rw [hfs]
    exact ⟨(Finset.erase_subset b S).trans hSU,
      by rw [Finset.card_erase_of_mem hb, hSc]; omega
        , hfreq b hb⟩
  have hne : S.erase a ≠ S.erase b := by
    intro hEq
    have : a ∈ S.erase a := hEq ▸ Finset.mem_erase.mpr ⟨hab, ha⟩
    exact (Finset.not_mem_erase a S) this
  have hunion : S.erase a ∪ S.erase b = S := by
    ext x
    simp only [Finset.mem_union, Finset.mem_erase]
    constructor
    · rintro (⟨_, hx⟩ | ⟨_, hx⟩) <;> exact hx
    · intro hx
      rcases eq_or_ne x a with rfl | hxa
      · exact Or.inr ⟨hab, hx⟩
      · exact Or.inl ⟨hxa, hx⟩
  rw [mem_generateItemSets]
  refine ⟨hSc, ?_⟩
  rcases mem_pairsOf_of_mem hmemA hmemB hne with hp | hp
  · exact ⟨(S.erase a, S.erase b), hp, hunion⟩
  · exact ⟨(S.erase b, S.erase a), hp, by rwa [Finset.union_comm]⟩

/-! ### The level-wise loop invariant -/

theorem aprioriLoop_spec (db : List (List α)) (m : ℚ) (U : Finset α) :
    ∀ (fuel k : ℕ) (fs infs acc : List (Finset α)),
      1 ≤ k → k ≤ U.card + 1 → U.card + 2 ≤ k + fuel →
      (∀ S, S ∈ fs ↔ S ⊆ U ∧ S.card = k ∧ m ≤ calculateSupport db S) →
      fs.Nodup →
      (∀ S ∈ infs, calculateSupport db S < m) →
      (∀ S, S ∈ acc ↔
        S ⊆ U ∧ 1 ≤ S.card ∧ S.card ≤ k ∧ m ≤ calculateSupport db S) →
      ∃ out : List (Finset α) × List (Finset α), ∃ K : ℕ,
        aprioriLoop db m fs infs k acc fuel = some out ∧
        k ≤ K ∧
        (∀ S, S ∈ out.1 ↔ S ⊆ U ∧ 1 ≤ S.card ∧ m ≤ calculateSupport db S) ∧
        (∀ S, S ∈ out.2 ↔ S ⊆ U ∧ S.card = K ∧ m ≤ calculateSupport db S) ∧
        (∀ S, S ⊆ U → m ≤ calculateSupport db S → S.card ≤ K) := by
  intro fuel
  induction fuel with
  | zero =>
    intro k fs infs acc hk1 hkU hfuel hfs hnd hinf hacc
    omega
  | succ f ih =>
    intro k fs infs acc hk1 hkU hfuel hfs hnd hinf hacc
    have hkey : ∀ S, S ∈ (eliminateCandidates db m
        (prune (generateItemSets fs (k + 1)) infs)).1 ↔
        S ⊆ U ∧ S.card = k + 1 ∧ m ≤ calculateSupport db S := by
      intro S
      rw [mem_eliminateCandidates_fst, mem_prune]
      constructor
      · rintro ⟨⟨hc, _⟩, hm⟩
        have := generateItemSets_sound (fun x hx => ((hfs x).mp hx).1) hc
        exact ⟨this.2, this.1, hm⟩
      · rintro ⟨hSU, hSc, hSm⟩
        refine ⟨⟨generateItemSets_complete hk1 hfs hSU hSc hSm, ?_⟩, hSm⟩
        intro j hj hsub
        exact absurd (le_trans hSm (calculateSupport_le_of_subset db hsub))
          (not_le.mpr (hinf j hj))
    by_cases h0 : (eliminateCandidates db m
        (prune (generateItemSets fs (k + 1)) infs)).1 = []
    · refine ⟨(acc, fs), k, ?_, le_refl k, ?_, hfs, ?_⟩
      · simp only [aprioriLoop]
        rw [if_pos h0]
      · intro S
        rw [hacc]
        constructor
        · rintro ⟨hSU, hc1, _, hSm⟩
          exact ⟨hSU, hc1, hSm⟩
        · rintro ⟨hSU, hc1, hSm⟩
          refine ⟨hSU, hc1, ?_, hSm⟩
          by_contra hgt
          obtain ⟨T, hTS, hTc⟩ := Finset.exists_subset_card_eq (by omega : k + 1 ≤ S.card)
          have : T ∈ (eliminateCandidates db m
              (prune (generateItemSets fs (k + 1)) infs)).1 := by
            rw [hkey]
            exact ⟨hTS.trans hSU, hTc,
              le_trans hSm (calculateSupport_le_of_subset db hTS)⟩
          rw [h0] at this
          exact absurd this (List.not_mem_nil T)
      · intro S hSU hSm
        by_contra hgt
        obtain ⟨T, hTS, hTc⟩ := Finset.exists_subset_card_eq (by omega : k + 1 ≤ S.card)
        have : T ∈ (eliminateCandidates db m
            (prune (generateItemSets fs (k + 1)) infs)).1 := by
          rw [hkey]
          exact ⟨hTS.trans hSU, hTc,
            le_trans hSm (calculateSupport_le_of_subset db hTS)⟩
        rw [h0] at this
        exact absurd this (List.not_mem_nil T)
    · obtain ⟨S₀, hS₀⟩ := List.exists_mem_of_ne_nil _ h0
      have hkU' : k + 1 ≤ U.card := by
        have := (hkey S₀).mp hS₀
        have hle := Finset.card_le_card this.1
        omega
      have hnd' : (eliminateCandidates db m
          (prune (generateItemSets fs (k + 1)) infs)).1.Nodup :=
        ((eliminateCandidates_fst_sublist db m _).trans
          (prune_sublist _ _)).nodup (generateItemSets_nodup fs (k + 1))
      have hinf' : ∀ S ∈ (eliminateCandidates db m
          (prune (generateItemSets fs (k + 1)) infs)).2,
          calculateSupport db S < m := fun S hS =>
        (mem_eliminateCandidates_snd.mp hS).2
      have hacc' : ∀ S, S ∈ acc ++ (eliminateCandidates db m
          (prune (generateItemSets fs (k + 1)) infs)).1 ↔
          S ⊆ U ∧ 1 ≤ S.card ∧ S.card ≤ k + 1 ∧ m ≤ calculateSupport db S := by
        intro S
        rw [List.mem_append, hacc, hkey]
        constructor
        · rintro (⟨hSU, h1, hk, hm⟩ | ⟨hSU, hc, hm⟩)
          · exact ⟨hSU, h1, by omega, hm⟩
          · exact ⟨hSU, by omega, by omega, hm⟩
        · rintro ⟨hSU, h1, hk, hm⟩
          rcases Nat.lt_or_ge S.card (k + 1) with hlt | hge
          · exact Or.inl ⟨hSU, h1, by omega, hm⟩
          · exact Or.inr ⟨hSU, by omega, hm⟩
      obtain ⟨out, K, hloop, hkK, h1, h2, h3⟩ :=
        ih (k + 1) _ _ _ (by omega) (by omega) (by omega) hkey hnd' hinf' hacc'
      refine ⟨out, K, ?_, by omega, h1, h2, h3⟩
      simp only [aprioriLoop]
      rw [if_neg h0]
      exact hloop

/-! ### Level-1 seeding and the full-run specification -/

theorem mem_itemList {db : List (List α)} {a : α} :
    a ∈ itemList db ↔ a ∈ dbItems db := by
  rw [itemList, List.mem_dedup, List.mem_flatten]
  induction db with
  | nil => simp [dbItems]
  | cons t rest ih =>
    simp only [dbItems, List.mem_cons, Finset.mem_union, List.mem_toFinset]
    constructor
    · rintro ⟨l, (rfl | hl), hal⟩
      · exact Or.inl hal
      · exact Or.inr (ih.mp ⟨l, hl, hal⟩)
    · rintro (hal | hr)
      · exact ⟨t, Or.inl rfl, hal⟩
      · obtain ⟨l, hl, hal⟩ := ih.mpr hr
        exact ⟨l, Or.inr hl, hal⟩

theorem mem_aprioriItems {db : List (List α)} {S : Finset α} :
    S ∈ aprioriItems db ↔ S ⊆ dbItems db ∧ S.card = 1 := by
  unfold aprioriItems
  rw [List.mem_map]
  constructor
  · rintro ⟨a, ha, rfl⟩
    rw [mem_itemList] at ha
    exact ⟨Finset.singleton_subset_iff.mpr ha, Finset.card_singleton a⟩
  · rintro ⟨hsub, hcard⟩
    obtain ⟨a, rfl⟩ := Finset.card_eq_one.mp hcard
    exact ⟨a, mem_itemList.mpr (Finset.singleton_subset_iff.mp hsub), rfl⟩

theorem aprioriItems_nodup (db : List (List α)) : (aprioriItems db).Nodup := by
  unfold aprioriItems
  exact (List.nodup_dedup db.flatten).map fun x y h =>
    Finset.singleton_injective h

theorem level1_spec (db : List (List α)) (m : ℚ) :
    ∀ S, S ∈ (eliminateCandidates db m (aprioriItems db)).1 ↔
      S ⊆ dbItems db ∧ S.card = 1 ∧ m ≤ calculateSupport db S := by
  intro S
  rw [mem_eliminateCandidates_fst, mem_aprioriItems]
  tauto

/-- Full-run specification: with the canonical fuel the search terminates,
the accumulated output is exactly the non-empty frequent subsets of the
item universe, and the final frontier is exactly the frequent sets of the
last non-empty level `K`. -/
theorem generateFrequentSetsRun_spec (db : List (List α)) (m : ℚ) :
    ∃ out : List (Finset α) × List (Finset α), ∃ K : ℕ,
      generateFrequentSetsRun db m = some out ∧ 1 ≤ K ∧
      (∀ S, S ∈ out.1 ↔
        S ⊆ dbItems db ∧ 1 ≤ S.card ∧ m ≤ calculateSupport db S) ∧
      (∀ S, S ∈ out.2 ↔
        S ⊆ dbItems db ∧ S.card = K ∧ m ≤ calculateSupport db S) ∧
      (∀ S, S ⊆ dbItems db → m ≤ calculateSupport db S → S.card ≤ K) := by
  have hacc : ∀ S, S ∈ (eliminateCandidates db m (aprioriItems db)).1 ↔
      S ⊆ dbItems db ∧ 1 ≤ S.card ∧ S.card ≤ 1 ∧ m ≤ calculateSupport db S := by
    intro S
    rw [level1_spec]
    constructor
    · rintro ⟨h1, h2, h3⟩
      exact ⟨h1, by omega, by omega, h3⟩
    · rintro ⟨h1, h2, h3, h4⟩
      exact ⟨h1, by omega, h4⟩
  have hinf : ∀ S ∈ (eliminateCandidates db m (aprioriItems db)).2,
      calculateSupport db S < m := fun S hS =>
    (mem_eliminateCandidates_snd.mp hS).2
  have hnd : (eliminateCandidates db m (aprioriItems db)).1.Nodup :=
    (eliminateCandidates_fst_sublist db m _).nodup (aprioriItems_nodup db)
  obtain ⟨out, K, hloop, hK, h1, h2, h3⟩ :=
    aprioriLoop_spec db m (dbItems db) ((dbItems db).card + 1) 1
      (eliminateCandidates db m (aprioriItems db)).1
      (eliminateCandidates db m (aprioriItems db)).2
      (eliminateCandidates db m (aprioriItems db)).1
      (le_refl 1) (by omega) (by omega) (level1_spec db m) hnd hinf hacc
  exact ⟨out, K, hloop, hK, h1, h2, h3⟩

/-! ### Claim C1: level-wise completeness -/

/-- C1: for every non-empty transaction database and every minsup, a full
run of `generateFrequentSets` terminates and its accumulated
frequent-itemset output, viewed as a set, is exactly the set of non-empty
itemsets over the database's distinct items whose support is at least
minsup. -/
theorem C1_level_wise_completeness (db : List (List α)) (m : ℚ)
    (hdb : db ≠ []) :
    (generateFrequentSetsRun db m).isSome = true ∧
    ∀ S : Finset α, S ∈ accOf (generateFrequentSetsRun db m) ↔
      S ≠ ∅ ∧ S ⊆ dbItems db ∧ m ≤ calculateSupport db S := by
  obtain ⟨out, K, hrun, hK, h1, h2, h3⟩ := generateFrequentSetsRun_spec db m
  rw [hrun]
  refine ⟨rfl, fun S => ?_⟩
  have hacc : accOf (some out) = out.1 := rfl
  rw [hacc, h1 S]
  have hne : 1 ≤ S.card ↔ S ≠ ∅ :=
    Finset.card_pos.trans Finset.nonempty_iff_ne_empty
  tauto

/-- Witness for C1 at the concrete database {{0}, {0,1}} with minsup 1/2:
the pair {0,1} (support 1/2) is retained in the accumulated output. -/
theorem C1_witness :
    (generateFrequentSetsRun [[0], [0, 1]] ((1:ℚ)/2)).isSome = true ∧
    (({0, 1} : Finset ℕ) ∈ accOf (generateFrequentSetsRun [[0], [0, 1]] ((1:ℚ)/2)) ↔
      ({0, 1} : Finset ℕ) ≠ ∅ ∧ ({0, 1} : Finset ℕ) ⊆ dbItems [[0], [0, 1]] ∧
      (1:ℚ)/2 ≤ calculateSupport [[0], [0, 1]] {0, 1}) :=
  ⟨(C1_level_wise_completeness [[0], [0, 1]] ((1:ℚ)/2) (by decide)).1,
   (C1_level_wise_completeness [[0], [0, 1]] ((1:ℚ)/2) (by decide)).2 {0, 1}⟩

/-! ### Claim C6: back-up-one-level termination -/

/-- C6: (i) whenever the newly computed frequent set of a level is empty,
the loop stops at that level at once, discarding the empty result: the
accumulator is returned untouched and the frontier is restored to the
previous level's frequent sets; (ii) consequently a full run terminates
with its final frontier equal to the frequent sets of the last non-empty
level `K` (no frequent itemset of any larger size exists). -/
theorem C6_backup_one_level (db : List (List α)) (m : ℚ) :
    (∀ (fs infs acc : List (Finset α)) (k fuel : ℕ),
      (eliminateCandidates db m (prune (generateItemSets fs (k + 1)) infs)).1 = [] →
      aprioriLoop db m fs infs k acc (fuel + 1) = some (acc, fs)) ∧
    ∃ out : List (Finset α) × List (Finset α), ∃ K : ℕ,
      generateFrequentSetsRun db m = some out ∧ 1 ≤ K ∧
      (∀ S, S ∈ out.2 ↔
        S ⊆ dbItems db ∧ S.card = K ∧ m ≤ calculateSupport db S) ∧
      (∀ S, S ⊆ dbItems db → m ≤ calculateSupport db S → S.card ≤ K) := by
  constructor
  · intro fs infs acc k fuel h
    simp only [aprioriLoop]
    rw [if_pos h]
  · obtain ⟨out, K, hrun, hK, h1, h2, h3⟩ := generateFrequentSetsRun_spec db m
    exact ⟨out, K, hrun, hK, h2, h3⟩

/-! ### Claim C5: anti-monotonicity of support -/

/-- C5: for itemsets A ⊆ B over a non-empty transaction database, the raw
occurrence count and the support of B never exceed those of A. -/
theorem C5_anti_monotonicity (db : List (List α)) (A B : Finset α)
    (hAB : A ⊆ B) (hdb : db ≠ []) :
    count db B ≤ count db A ∧
    calculateSupport db B ≤ calculateSupport db A :=
  ⟨count_le_of_subset db hAB, calculateSupport_le_of_subset db hAB⟩

/-- Witness for C5 with A = {0} ⊆ B = {0,1} on the database {{0}, {0,1}}. -/
theorem C5_witness :
    count [[0], [0, 1]] ({0, 1} : Finset ℕ) ≤ count [[0], [0, 1]] {0} ∧
    calculateSupport [[0], [0, 1]] ({0, 1} : Finset ℕ) ≤
      calculateSupport [[0], [0, 1]] {0} :=
  C5_anti_monotonicity [[0], [0, 1]] {0} {0, 1} (by decide) (by decide)

/-! ### Claim C8: the lift formula -/

/-- C8: when both marginal supports are positive, the source expression
`confidence / ((bodySupport * headSupport) / bodySupport)` applied to
`confidence = support(body ∪ head) / support(body)` equals
`confidence / support(head)`, and, in exact rational arithmetic, the
canonical lift `support(body ∪ head) / (support(body) * support(head))`. -/
theorem C8_lift_formula (db : List (List α)) (body hd : Finset α)
    (hb : 0 < calculateSupport db body) (hh : 0 < calculateSupport db hd) :
    calculateLift db body hd (calculateConfidence db (body ∪ hd) body) =
      calculateConfidence db (body ∪ hd) body / calculateSupport db hd ∧
    calculateLift db body hd (calculateConfidence db (body ∪ hd) body) =
      calculateSupport db (body ∪ hd) /
        (calculateSupport db body * calculateSupport db hd) := by
  unfold calculateLift calculateConfidence
  rw [mul_div_cancel_left₀ _ (ne_of_gt hb)]
  exact ⟨rfl, by rw [div_div]⟩

/-- Witness for C8 on the database {{0,1}, {0}, {1}} with body {0} and
head {1}: both marginals are 2/3 > 0. -/
theorem C8_witness :
    calculateLift [[0, 1], [0], [1]] ({0} : Finset ℕ) {1}
        (calculateConfidence [[0, 1], [0], [1]] (({0} : Finset ℕ) ∪ {1}) {0}) =
      calculateConfidence [[0, 1], [0], [1]] (({0} : Finset ℕ) ∪ {1}) {0} /
        calculateSupport [[0, 1], [0], [1]] {1} ∧
    calculateLift [[0, 1], [0], [1]] ({0} : Finset ℕ) {1}
        (calculateConfidence [[0, 1], [0], [1]] (({0} : Finset ℕ) ∪ {1}) {0}) =
      calculateSupport [[0, 1], [0], [1]] (({0} : Finset ℕ) ∪ {1}) /
        (calculateSupport [[0, 1], [0], [1]] {0} *
          calculateSupport [[0, 1], [0], [1]] {1}) :=
  C8_lift_formula [[0, 1], [0], [1]] {0} {1}
    (by with_unfolding_all decide) (by with_unfolding_all decide)

/-! ### Claim C10: the empty itemset at the Support Oracle interface -/

theorem count_empty (db : List (List α)) :
    count db (∅ : Finset α) = db.length := by
  induction db with
  | nil => rfl
  | cons t rest ih =>
    simp [count, ih]
    omega

/-- C10: the empty itemset is accepted by the Support Oracle with no
guard: its count is the total number of transactions (it is a subset of
every transaction), so on any non-empty database its support is 1. -/
theorem C10_empty_itemset (db db' : List (List α)) (hdb : db' ≠ []) :
    count db (∅ : Finset α) = db.length ∧
    calculateSupport db' (∅ : Finset α) = 1 := by
  refine ⟨count_empty db, ?_⟩
  unfold calculateSupport
  rw [count_empty db']
  have hlen : (db'.length : ℚ) ≠ 0 :=
    Nat.cast_ne_zero.mpr (Nat.pos_iff_ne_zero.mp (List.length_pos.mpr hdb))
  exact div_self hlen

/-- Witness for C10 on the database {{0}, {1}}. -/
theorem C10_witness :
    count [[0], [1]] (∅ : Finset ℕ) = [[0], [1]].length ∧
    calculateSupport [[(0:ℕ)], [1]] (∅ : Finset ℕ) = 1 :=
  C10_empty_itemset [[0], [1]] [[0], [1]] (by decide)

/-! ### Claim C3: rule validity -/

/-- C3: every rule emitted by `generateAssociationRules` has a non-empty
body and head that are disjoint and partition the rule's itemset, that
itemset is one of the input frequent itemsets, and all three inclusive
threshold tests hold for the rule's stored scores. -/
theorem C3_rule_validity (db : List (List α)) (minsup minconf minlift : ℚ)
    (frequentSets : List (Finset α)) (r : AssociationRule α)
    (hr : r ∈ generateAssociationRules db minsup minconf minlift frequentSets) :
    r.body ≠ ∅ ∧ r.head ≠ ∅ ∧ r.body ∩ r.head = ∅ ∧
    r.body ∪ r.head = r.itemset ∧ r.itemset ∈ frequentSets ∧
    minconf ≤ r.confidence ∧ minsup ≤ r.support ∧ minlift ≤ r.lift := by
  simp only [generateAssociationRules, List.mem_flatMap, List.mem_filterMap] at hr
  obtain ⟨itemset, hits, c, hc, hr⟩ := hr
  obtain ⟨i, _, hci⟩ := hc
  have hcsub : ∀ x ∈ c, x ∈ itemset := by
    intro x hx
    have hmem := (List.mem_sublistsLen.mp hci).1.subset hx
    exact by simpa using (List.mem_filter.mp hmem).2
  split_ifs at hr with h1 h2
  · obtain rfl : mkAssociationRule db c.toFinset
        (itemset.filter fun x => x ∉ c) = r := Option.some_injective _ hr
    have hunion : c.toFinset ∪ itemset.filter (fun x => x ∉ c) = itemset := by
      ext x
      simp only [Finset.mem_union, List.mem_toFinset, Finset.mem_filter]
      constructor
      · rintro (hx | ⟨hx, _⟩)
        · exact hcsub x hx
        · exact hx
      · intro hx
        by_cases hxc : x ∈ c
        · exact Or.inl hxc
        · exact Or.inr ⟨hx, hxc⟩
    refine ⟨(Finset.card_pos.mp h1.2).ne_empty,
      (Finset.card_pos.mp h1.1).ne_empty, ?_, rfl, ?_,
      h2.1, h2.2.1, h2.2.2⟩
    · apply Finset.eq_empty_iff_forall_not_mem.mpr
      intro x hx
      simp only [mkAssociationRule, Finset.mem_inter, List.mem_toFinset,
        Finset.mem_filter] at hx
      exact hx.2.2 hx.1
    · show c.toFinset ∪ itemset.filter (fun x => x ∉ c) ∈ frequentSets
      rwa [hunion]

/-- Witness for C3: on the database {{0,1}, {0,1}, {0}} with frequent
itemset {0,1} and zero thresholds, the rule {0} -> {1} is emitted and
satisfies every conjunct. -/
theorem C3_witness :
    (mkAssociationRule [[0, 1], [0, 1], [0]] ({0} : Finset ℕ) {1}).body ≠ ∅ ∧
    (mkAssociationRule [[0, 1], [0, 1], [0]] ({0} : Finset ℕ) {1}).head ≠ ∅ ∧
    (mkAssociationRule [[0, 1], [0, 1], [0]] ({0} : Finset ℕ) {1}).body ∩
      (mkAssociationRule [[0, 1], [0, 1], [0]] ({0} : Finset ℕ) {1}).head = ∅ ∧
    (mkAssociationRule [[0, 1], [0, 1], [0]] ({0} : Finset ℕ) {1}).body ∪
      (mkAssociationRule [[0, 1], [0, 1], [0]] ({0} : Finset ℕ) {1}).head =
      (mkAssociationRule [[0, 1], [0, 1], [0]] ({0} : Finset ℕ) {1}).itemset ∧
    (mkAssociationRule [[0, 1], [0, 1], [0]] ({0} : Finset ℕ) {1}).itemset ∈
      [({0, 1} : Finset ℕ)] ∧
    (0:ℚ) ≤ (mkAssociationRule [[0, 1], [0, 1], [0]] ({0} : Finset ℕ) {1}).confidence ∧
    (0:ℚ) ≤ (mkAssociationRule [[0, 1], [0, 1], [0]] ({0} : Finset ℕ) {1}).support ∧
    (0:ℚ) ≤ (mkAssociationRule [[0, 1], [0, 1], [0]] ({0} : Finset ℕ) {1}).lift :=
  C3_rule_validity [[0, 1], [0, 1], [0]] 0 0 0 [{0, 1}]
    (mkAssociationRule [[0, 1], [0, 1], [0]] {0} {1})
    (by with_unfolding_all decide)

/-! ### Stability of composed insertion sorts (for the Rule Ranker) -/

theorem pairwise_true (l : List β) : l.Pairwise (fun _ _ => True) := by
  induction l with
  | nil => exact List.Pairwise.nil
  | cons a l ih => exact ih.cons (fun _ _ => trivial)

theorem sorted_orderedInsert_stable {r s : β → β → Prop} [DecidableRel r]
    (htot : ∀ a b, r a b ∨ r b a) (htrans : ∀ a b c, r a b → r b c → r a c)
    (a : β) (L : List β)
    (hL : L.Sorted (fun x y => r x y ∧ (r y x → s x y)))
    (ha : ∀ b ∈ L, s a b) :
    (L.orderedInsert r a).Sorted (fun x y => r x y ∧ (r y x → s x y)) := by
  induction L with
  | nil => simp
  | cons y ys ih =>
    rw [List.orderedInsert]
    split_ifs with hay
    · rw [List.sorted_cons]
      refine ⟨?_, hL⟩
      intro z hz
      rcases List.mem_cons.mp hz with rfl | hz
      · exact ⟨hay, fun _ => ha z (List.mem_cons_self z ys)⟩
      · have hyz := (List.sorted_cons.mp hL).1 z hz
        exact ⟨htrans a y z hay hyz.1, fun _ => ha z (List.mem_cons_of_mem y hz)⟩
    · have hya : r y a := (htot a y).resolve_left hay
      rw [List.sorted_cons]
      refine ⟨?_, ih (List.sorted_cons.mp hL).2
        (fun b hb => ha b (List.mem_cons_of_mem y hb))⟩
      intro z hz
      rw [List.mem_orderedInsert] at hz
      rcases hz with rfl | hz
      · exact ⟨hya, fun h => absurd h hay⟩
      · exact (List.sorted_cons.mp hL).1 z hz

theorem sorted_insertionSort_stable {r s : β → β → Prop} [DecidableRel r]
    (htot : ∀ a b, r a b ∨ r b a) (htrans : ∀ a b c, r a b → r b c → r a c)
    (l : List β) (hl : l.Sorted s) :
    (l.insertionSort r).Sorted (fun x y => r x y ∧ (r y x → s x y)) := by
  induction l with
  | nil => simp
  | cons a l ih =>
    rw [List.insertionSort]
    apply sorted_orderedInsert_stable htot htrans
    · exact ih (List.sorted_cons.mp hl).2
    · intro b hb
      rw [List.mem_insertionSort] at hb
      exact (List.sorted_cons.mp hl).1 b hb

/-! ### Claim C4: the Rule Ranker -/

/-- C4 counterexample: two rules that agree on itemset size, lift and
confidence but have supports 1/4 and 1/2.  The source's first pass sorts
support DESCENDING (`reverse=True`), so the 1/2-rule comes first; the
claim's four passes with support ascending put the 1/4-rule first. -/
theorem C4_counterexample :
    sortAssociationRules
        [⟨{0}, {1}, {0, 1}, 1/4, 0, 0⟩,
         (⟨{0}, {1}, {0, 1}, 1/2, 0, 0⟩ : AssociationRule ℕ)] ≠
      sortAssociationRulesSpec
        [⟨{0}, {1}, {0, 1}, 1/4, 0, 0⟩,
         (⟨{0}, {1}, {0, 1}, 1/2, 0, 0⟩ : AssociationRule ℕ)] := by
  with_unfolding_all decide

/-- C4 (amended): `sortAssociationRules` performs four successive stable
sorts — by support DESCENDING, then confidence ascending, then lift
ascending, then itemset size descending — so its output is a permutation
of the input sorted by the net order: itemset size descending dominant,
with lift ascending, confidence ascending and support descending as
successive tie-breakers. -/
theorem C4_rule_ranker_order (l : List (AssociationRule α)) :
    (sortAssociationRules l).Perm l ∧
    (sortAssociationRules l).Sorted ruleRankLE := by
  constructor
  · unfold sortAssociationRules
    exact ((List.perm_insertionSort _ _).trans
      ((List.perm_insertionSort _ _).trans
        ((List.perm_insertionSort _ _).trans (List.perm_insertionSort _ _))))
  · have h1 := @sorted_insertionSort_stable (AssociationRule α)
      (@supportGE α) (fun _ _ => True) _
      (fun a b => le_total b.support a.support)
      (fun a b c hab hbc => le_trans hbc hab) l (pairwise_true l)
    have h2 := @sorted_insertionSort_stable (AssociationRule α)
      (@confidenceLE α) _ _
      (fun a b => le_total a.confidence b.confidence)
      (fun a b c hab hbc => le_trans hab hbc) _ h1
    have h3 := @sorted_insertionSort_stable (AssociationRule α)
      (@liftLE α) _ _
      (fun a b => le_total a.lift b.lift)
      (fun a b c hab hbc => le_trans hab hbc) _ h2
    have h4 := @sorted_insertionSort_stable (AssociationRule α)
      (@sizeGE α) _ _
      (fun a b => le_total b.itemset.card a.itemset.card)
      (fun a b c hab hbc => le_trans hbc hab) _ h3
    apply List.Pairwise.imp ?_ h4
    rintro x y ⟨hsz, hrest⟩
    refine ⟨hsz, fun hzs => ?_⟩
    obtain ⟨hlf, hrest⟩ := hrest hzs
    refine ⟨hlf, fun hfl => ?_⟩
    obtain ⟨hcf, hrest⟩ := hrest hfl
    refine ⟨hcf, fun hfc => ?_⟩
    exact (hrest hfc).1

/-! ### Claim C2: A4.py's prune violates the pruning contract -/

/-- C2: evaluation at the failing input.  {0} is known-infrequent and a
subset of the candidate {0,1}, yet A4.py's `prune` RETAINS the candidate:
as soon as one infrequent set ({2}) fails the subset test it appends the
candidate, contradicting its own docstring and the spec.  Apriori.py's
`prune` removes the candidate, as the claim requires. -/
theorem C2_a4_prune_failure :
    ({0} : Finset ℕ) ⊆ {0, 1} ∧
    ({0, 1} : Finset ℕ) ∈ a4Prune [{0, 1}] [{0}, {2}] ∧
    a4Prune [({0, 1} : Finset ℕ)] [{0}, {2}] = [{0, 1}] ∧
    prune [({0, 1} : Finset ℕ)] [{0}, {2}] = [] := by decide

/-! ### Claim C7: zero distinct items -/

/-- C7: on a database with zero distinct items the Apriori.py search (over
the checked Support Oracle, which would surface any division by zero)
terminates at once with an empty accumulated output and empty frontier;
the A4.py variant instead exits its loop without ever assigning `backup`
(`some none`), modelling the `UnboundLocalError` Python raises at
`frequentSets = backup`. -/
theorem itemList_eq_nil (db : List (List α)) (hdb : dbItems db = ∅) :
    itemList db = [] := by
  rw [List.eq_nil_iff_forall_not_mem]
  intro a ha
  rw [mem_itemList, hdb] at ha
  exact absurd ha (Finset.not_mem_empty a)

theorem generateFrequentSetsE_no_items (db : List (List α)) (m : ℚ)
    (fuel : ℕ) (hdb : dbItems db = ∅) (hfuel : 1 ≤ fuel) :
    generateFrequentSetsE db m fuel = some (some ([], [])) := by
  obtain ⟨f, rfl⟩ : ∃ f, fuel = f + 1 := ⟨fuel - 1, by omega⟩
  have hitems : aprioriItems db = [] := by
    rw [aprioriItems, itemList_eq_nil db hdb]; rfl
  rw [generateFrequentSetsE, hitems]
  rfl

theorem a4RunFreqPhase_no_items (db : List (List α)) (m : ℚ)
    (fuel : ℕ) (hdb : dbItems db = ∅) (hfuel : 1 ≤ fuel) :
    a4RunFreqPhase db m fuel = some none := by
  obtain ⟨f, rfl⟩ : ∃ f, fuel = f + 1 := ⟨fuel - 1, by omega⟩
  rw [a4RunFreqPhase, itemList_eq_nil db hdb]
  rfl

theorem C7_zero_items (db : List (List α)) (m : ℚ) (fuel : ℕ)
    (hdb : dbItems db = ∅) (hfuel : 1 ≤ fuel) :
    generateFrequentSetsE db m fuel = some (some ([], [])) ∧
    a4RunFreqPhase db m fuel = some none :=
  ⟨generateFrequentSetsE_no_items db m fuel hdb hfuel,
   a4RunFreqPhase_no_items db m fuel hdb hfuel⟩

/-- Witness for C7 at the concrete empty database with minsup 1/2. -/
theorem C7_witness :
    generateFrequentSetsE ([] : List (List ℕ)) (1/2) 1 = some (some ([], [])) ∧
    a4RunFreqPhase ([] : List (List ℕ)) (1/2) 1 = some none :=
  C7_zero_items [] (1/2) 1 rfl (by decide)

/-! ### Claim C9: no fail-fast on an empty database -/

/-- C9 counterexample: with zero transactions nothing is surfaced at
construction — `__init__` performs no validation and no
`EmptyDatabaseError` exists in the source — and the full checked search
then runs to NORMAL completion with empty output instead of failing. -/
theorem C9_counterexample :
    aprioriInit ([] : List (List ℕ)) = ([], []) ∧
    generateFrequentSetsE ([] : List (List ℕ)) (1/3) 2 = some (some ([], [])) := by
  with_unfolding_all decide

/-- C9 (amended): construction on an empty transaction store succeeds
(returning the empty state), and for every minsup the checked search
terminates normally with empty results; the checked Support Oracle would
return `none` on any evaluation with zero transactions, so the normal
completion also shows support is never evaluated and no division by zero
occurs. -/
theorem C9_no_fail_fast (m : ℚ) (fuel : ℕ) (hfuel : 1 ≤ fuel) :
    aprioriInit ([] : List (List α)) = ([], []) ∧
    generateFrequentSetsE ([] : List (List α)) m fuel = some (some ([], [])) :=
  ⟨rfl, generateFrequentSetsE_no_items [] m fuel rfl hfuel⟩

/-- Witness for C9 at minsup 1/2 with fuel 1. -/
theorem C9_witness :
    aprioriInit ([] : List (List ℕ)) = ([], []) ∧
    generateFrequentSetsE ([] : List (List ℕ)) (1/2) 1 = some (some ([], [])) :=
  C9_no_fail_fast (1/2) 1 (by decide)

end AprioriSpec
